import Mathlib

/-!
Verification of the interval-overlap accumulator (`src/task3/solution.py`).

Timestamps are Python integers, embedded as `Int`.  An interval is a pair
`(start, end)` of `Int`; interval lists are `List (Int × Int)`.  The input
dictionary of `appearance` is embedded as a function `String → Option (List Int)`
(Python's `dict.get(key, [])` becomes `(d key).getD []`).  The only fallible
operations of the Python code are the subscript accesses `lesson_times[0]` and
`lesson_times[1]`, so `appearance` is embedded with result type `Option Int`:
`none` models an uncaught `IndexError`.
-/

namespace Task3

/-- Embeds `_parse_timestamps_to_intervals` (src/task3/solution.py, lines 3-15).
The Python loop walks the list two elements at a time (`range(0, len, 2)`),
keeps `(start, end)` only when `i + 1 < len` and `start < end`. -/
def _parse_timestamps_to_intervals : List Int → List (Int × Int)
  | start :: end_ :: rest =>
      (if start < end_ then [(start, end_)] else []) ++ _parse_timestamps_to_intervals rest
  | _ => []

/-- Embeds `_clip_intervals_to_lesson` (src/task3/solution.py, lines 17-32). -/
def _clip_intervals_to_lesson (intervals : List (Int × Int))
    (lesson_start lesson_end : Int) : List (Int × Int) :=
  match intervals with
  | [] => []
  | (start, end_) :: rest =>
      let effective_start := max start lesson_start
      let effective_end := min end_ lesson_end
      (if effective_start < effective_end then [(effective_start, effective_end)] else [])
        ++ _clip_intervals_to_lesson rest lesson_start lesson_end

/-- The nested pair loop of `_calculate_overlap_duration`
(src/task3/solution.py, lines 42-48): all pairwise intersections
`(max starts, min ends)` kept when nonempty, in loop order. -/
def commonSegments (intervals1 intervals2 : List (Int × Int)) : List (Int × Int) :=
  intervals1.flatMap fun r1 =>
    intervals2.filterMap fun r2 =>
      let overlap_start := max r1.1 r2.1
      let overlap_end := min r1.2 r2.2
      if overlap_start < overlap_end then some (overlap_start, overlap_end) else none

/-- Stable insertion of a segment into a list sorted by first component,
placed before the first element with a strictly larger key. -/
def insertByStart (p : Int × Int) : List (Int × Int) → List (Int × Int)
  | [] => [p]
  | q :: rest => if p.1 ≤ q.1 then p :: q :: rest else q :: insertByStart p rest

/-- Embeds `common_segments.sort(key=lambda x: x[0])` (line 53): Python's sort is
a stable sort by the first component; a stable insertion sort has the same
input-output behaviour. -/
def sortByStart : List (Int × Int) → List (Int × Int)
  | [] => []
  | p :: rest => insertByStart p (sortByStart rest)

/-- The merge sweep of `_calculate_overlap_duration` (lines 55-65): the running
segment `(current_merged_start, current_merged_end)` absorbs the next segment
when `next_start < current_merged_end`, else is flushed. -/
def mergeSweep : Int × Int → List (Int × Int) → List (Int × Int)
  | cur, [] => [cur]
  | cur, (next_start, next_end) :: rest =>
      if next_start < cur.2 then
        mergeSweep (cur.1, max cur.2 next_end) rest
      else
        cur :: mergeSweep (next_start, next_end) rest

/-- Embeds `_calculate_overlap_duration` (src/task3/solution.py, lines 34-70).
The `match … | [] => 0` arm is unreachable (sorting preserves emptiness) and
mirrors the early `return 0` on an empty `common_segments`. -/
def _calculate_overlap_duration (intervals1 intervals2 : List (Int × Int)) : Int :=
  let common := commonSegments intervals1 intervals2
  if common.isEmpty then 0
  else
    match sortByStart common with
    | [] => 0
    | first :: rest =>
        ((mergeSweep first rest).map (fun p => p.2 - p.1)).sum

/-- Embeds `appearance` (src/task3/solution.py, lines 72-107).  The guard
`not lesson_times or len(lesson_times) < 2` is `lesson_times.length < 2`
(an empty list has length `0 < 2`). -/
def appearance (intervals_data : String → Option (List Int)) : Option Int :=
  let lesson_times := (intervals_data "lesson").getD []
  let pupil_times := (intervals_data "pupil").getD []
  let tutor_times := (intervals_data "tutor").getD []
  if lesson_times.length < 2 then some 0
  else do
    let lesson_start ← lesson_times[0]?
    let lesson_end ← lesson_times[1]?
    if lesson_start ≥ lesson_end then pure 0
    else
      let pupil_intervals_raw := _parse_timestamps_to_intervals pupil_times
      let tutor_intervals_raw := _parse_timestamps_to_intervals tutor_times
      let pupil_effective :=
        _clip_intervals_to_lesson pupil_intervals_raw lesson_start lesson_end
      let tutor_effective :=
        _clip_intervals_to_lesson tutor_intervals_raw lesson_start lesson_end
      if pupil_effective.isEmpty ∨ tutor_effective.isEmpty then pure 0
      else pure (_calculate_overlap_duration pupil_effective tutor_effective)

/-- Builds the session mapping from the three lists, as a dictionary with
exactly the keys `lesson`, `pupil`, `tutor`. -/
def mkSessionInput (lesson pupil tutor : List Int) : String → Option (List Int) :=
  fun k =>
    if k = "lesson" then some lesson
    else if k = "pupil" then some pupil
    else if k = "tutor" then some tutor
    else none

/-- The set of integer points covered by the half-open interval
`[p.1, p.2)` (the spec's half-open convention, §GLOSSARY). -/
def segPoints (p : Int × Int) : Finset Int := Finset.Ico p.1 p.2

/-- The set of integer points covered by at least one segment of a list. -/
def coveredPoints (l : List (Int × Int)) : Finset Int :=
  l.foldr (fun p acc => segPoints p ∪ acc) ∅

/-- The spec's reading of the Accumulator's output (§4.3): the set of points
covered by at least one pairwise intersection of an interval from `A` with an
interval from `B`; the intersection of `[a.1, a.2)` and `[b.1, b.2)` is
`[max a.1 b.1, min a.2 b.2)`. -/
def specOverlapPoints (A B : List (Int × Int)) : Finset Int :=
  coveredPoints (A.flatMap fun a => B.map fun b => (max a.1 b.1, min a.2 b.2))

/-- The Clipper as the spec words it (§4.2): map each interval `(s, e)` to
`(max s L, min e U)`, keep it only when the clipped start is strictly below
the clipped end, preserving relative order. -/
def clipSpec (L U : Int) (xs : List (Int × Int)) : List (Int × Int) :=
  (xs.map fun p => (max p.1 L, min p.2 U)).filter fun q => q.1 < q.2

/-- The Parser as the claim words it: the pairs `(t[2i], t[2i+1])` with
`t[2i] < t[2i+1]`, in order of increasing `i`; an index `i` whose pair is
incomplete contributes nothing (for `i < t.length / 2` both lookups succeed). -/
def parseSpecPairs (t : List Int) : List (Int × Int) :=
  (List.range (t.length / 2)).filterMap fun i =>
    t[2 * i]?.bind fun a => t[2 * i + 1]?.bind fun b =>
      if a < b then some (a, b) else none

/-- Key ordering on segments used by the Python `sort(key=lambda x: x[0])`. -/
def StartLE (a b : Int × Int) : Prop := a.1 ≤ b.1

/-! ### Covered-point sets -/

theorem coveredPoints_nil : coveredPoints [] = ∅ := rfl

theorem coveredPoints_cons (p : Int × Int) (l : List (Int × Int)) :
    coveredPoints (p :: l) = segPoints p ∪ coveredPoints l := rfl

theorem mem_coveredPoints {x : Int} {l : List (Int × Int)} :
    x ∈ coveredPoints l ↔ ∃ p ∈ l, p.1 ≤ x ∧ x < p.2 := by
  induction l with
  | nil => simp [coveredPoints_nil]
  | cons p l ih =>
      simp [coveredPoints_cons, segPoints, Finset.mem_union, Finset.mem_Ico, ih]

theorem coveredPoints_perm {l l' : List (Int × Int)} (h : l.Perm l') :
    coveredPoints l = coveredPoints l' := by
  ext x
  simp only [mem_coveredPoints]
  constructor
  · rintro ⟨p, hp, hx⟩; exact ⟨p, h.mem_iff.mp hp, hx⟩
  · rintro ⟨p, hp, hx⟩; exact ⟨p, h.mem_iff.mpr hp, hx⟩

/-! ### The stable sort by starting point -/

theorem insertByStart_perm (p : Int × Int) (l : List (Int × Int)) :
    (insertByStart p l).Perm (p :: l) := by
  induction l with
  | nil => simp [insertByStart]
  | cons q rest ih =>
      by_cases h : p.1 ≤ q.1
      · simp [insertByStart, h]
      · simp only [insertByStart, h, if_false]
        exact (ih.cons q).trans (List.Perm.swap p q rest)

theorem sortByStart_perm (l : List (Int × Int)) : (sortByStart l).Perm l := by
  induction l with
  | nil => simp [sortByStart]
  | cons p rest ih =>
      exact (insertByStart_perm p (sortByStart rest)).trans (ih.cons p)

theorem insertByStart_pairwise {p : Int × Int} {l : List (Int × Int)}
    (h : l.Pairwise StartLE) : (insertByStart p l).Pairwise StartLE := by
  induction l with
  | nil => simp [insertByStart, StartLE]
  | cons q rest ih =>
      rcases List.pairwise_cons.mp h with ⟨hq, hrest⟩
      by_cases hle : p.1 ≤ q.1
      · rw [insertByStart, if_pos hle]
        refine List.pairwise_cons.mpr ⟨?_, h⟩
        intro b hb
        rcases List.mem_cons.mp hb with rfl | hb
        · exact hle
        · exact le_trans hle (hq b hb)
      · rw [insertByStart, if_neg hle]
        refine List.pairwise_cons.mpr ⟨?_, ih hrest⟩
        intro b hb
        rcases List.mem_cons.mp ((insertByStart_perm p rest).mem_iff.mp hb) with hbp | hb
        · exact hbp ▸ le_of_lt (lt_of_not_le hle)
        · exact hq b hb

theorem sortByStart_pairwise (l : List (Int × Int)) :
    (sortByStart l).Pairwise StartLE := by
  induction l with
  | nil => simp [sortByStart]
  | cons p rest ih => exact insertByStart_pairwise ih

/-! ### Common segments -/

theorem mem_commonSegments {A B : List (Int × Int)} {p : Int × Int} :
    p ∈ commonSegments A B ↔
      ∃ a ∈ A, ∃ b ∈ B, max a.1 b.1 < min a.2 b.2 ∧ p = (max a.1 b.1, min a.2 b.2) := by
  simp only [commonSegments, List.mem_flatMap, List.mem_filterMap]
  constructor
  · rintro ⟨a, ha, b, hb, hsome⟩
    refine ⟨a, ha, b, hb, ?_⟩
    split at hsome
    · exact ⟨by assumption, (Option.some_inj.mp hsome).symm⟩
    · exact absurd hsome (by simp)
  · rintro ⟨a, ha, b, hb, hlt, rfl⟩
    exact ⟨a, ha, b, hb, by simp [hlt]⟩

theorem commonSegments_valid {A B : List (Int × Int)} {p : Int × Int}
    (hp : p ∈ commonSegments A B) : p.1 < p.2 := by
  rcases mem_commonSegments.mp hp with ⟨a, _, b, _, hlt, rfl⟩
  exact hlt

theorem mem_coveredPoints_commonSegments {A B : List (Int × Int)} {x : Int} :
    x ∈ coveredPoints (commonSegments A B) ↔
      ∃ a ∈ A, ∃ b ∈ B, max a.1 b.1 ≤ x ∧ x < min a.2 b.2 := by
  rw [mem_coveredPoints]
  constructor
  · rintro ⟨p, hp, hx1, hx2⟩
    rcases mem_commonSegments.mp hp with ⟨a, ha, b, hb, _, rfl⟩
    exact ⟨a, ha, b, hb, hx1, hx2⟩
  · rintro ⟨a, ha, b, hb, hx1, hx2⟩
    exact ⟨(max a.1 b.1, min a.2 b.2),
      mem_commonSegments.mpr ⟨a, ha, b, hb, lt_of_le_of_lt hx1 hx2, rfl⟩, hx1, hx2⟩

theorem mem_specOverlapPoints {A B : List (Int × Int)} {x : Int} :
    x ∈ specOverlapPoints A B ↔
      ∃ a ∈ A, ∃ b ∈ B, max a.1 b.1 ≤ x ∧ x < min a.2 b.2 := by
  simp only [specOverlapPoints, mem_coveredPoints, List.mem_flatMap, List.mem_map]
  constructor
  · rintro ⟨p, ⟨a, ha, b, hb, rfl⟩, hx⟩
    exact ⟨a, ha, b, hb, hx⟩
  · rintro ⟨a, ha, b, hb, hx⟩
    exact ⟨(max a.1 b.1, min a.2 b.2), ⟨a, ha, b, hb, rfl⟩, hx⟩

theorem coveredPoints_commonSegments_eq_spec (A B : List (Int × Int)) :
    coveredPoints (commonSegments A B) = specOverlapPoints A B := by
  ext x; rw [mem_coveredPoints_commonSegments, mem_specOverlapPoints]

/-! ### The merge sweep -/

theorem Ico_union_of_overlap {cs ce ns ne : Int} (h1 : cs ≤ ns) (h2 : ns < ce) :
    Finset.Ico cs ce ∪ Finset.Ico ns ne = Finset.Ico cs (max ce ne) := by
  ext x
  simp only [Finset.mem_union, Finset.mem_Ico]
  omega

theorem mergeSweep_spec : ∀ (rest : List (Int × Int)) (cs ce : Int),
    cs < ce →
    (∀ p ∈ rest, p.1 < p.2) →
    (∀ p ∈ rest, cs ≤ p.1) →
    rest.Pairwise StartLE →
    (∃ e' tl, mergeSweep (cs, ce) rest = (cs, e') :: tl) ∧
    coveredPoints (mergeSweep (cs, ce) rest) = coveredPoints ((cs, ce) :: rest) ∧
    (∀ p ∈ mergeSweep (cs, ce) rest, p.1 < p.2) ∧
    (mergeSweep (cs, ce) rest).Chain' (fun a b => a.2 ≤ b.1) := by
  intro rest
  induction rest with
  | nil =>
      intro cs ce h1 _ _ _
      refine ⟨⟨ce, [], rfl⟩, rfl, ?_, ?_⟩
      · intro p hp
        rw [show mergeSweep (cs, ce) [] = [(cs, ce)] from rfl] at hp
        rcases List.mem_singleton.mp hp with rfl
        exact h1
      · rw [show mergeSweep (cs, ce) [] = [(cs, ce)] from rfl]
        exact List.chain'_singleton _
  | cons q rest' ih =>
      obtain ⟨ns, ne⟩ := q
      intro cs ce hcs hvalid hstart hpw
      have hns : ns < ne := hvalid (ns, ne) (List.mem_cons_self _ _)
      have hvalid' : ∀ p ∈ rest', p.1 < p.2 :=
        fun p hp => hvalid p (List.mem_cons_of_mem _ hp)
      have hcs_ns : cs ≤ ns := hstart (ns, ne) (List.mem_cons_self _ _)
      rcases List.pairwise_cons.mp hpw with ⟨hns_le, hpw'⟩
      by_cases hmerge : ns < ce
      · rw [show mergeSweep (cs, ce) ((ns, ne) :: rest') =
            if ns < ce then mergeSweep (cs, max ce ne) rest'
            else (cs, ce) :: mergeSweep (ns, ne) rest' from rfl, if_pos hmerge]
        have hcs' : cs < max ce ne := lt_of_lt_of_le hcs (le_max_left _ _)
        have hstart' : ∀ p ∈ rest', cs ≤ p.1 :=
          fun p hp => hstart p (List.mem_cons_of_mem _ hp)
        obtain ⟨hstruct, hcov, hval, hchain⟩ := ih cs (max ce ne) hcs' hvalid' hstart' hpw'
        refine ⟨hstruct, ?_, hval, hchain⟩
        rw [hcov, coveredPoints_cons, coveredPoints_cons, coveredPoints_cons,
          ← Finset.union_assoc, segPoints, segPoints, segPoints,
          Ico_union_of_overlap hcs_ns hmerge]
      · rw [show mergeSweep (cs, ce) ((ns, ne) :: rest') =
            if ns < ce then mergeSweep (cs, max ce ne) rest'
            else (cs, ce) :: mergeSweep (ns, ne) rest' from rfl, if_neg hmerge]
        have hstart'' : ∀ p ∈ rest', ns ≤ p.1 := fun p hp => hns_le p hp
        obtain ⟨⟨e', tl, heq⟩, hcov, hval, hchain⟩ := ih ns ne hns hvalid' hstart'' hpw'
        refine ⟨⟨ce, _, rfl⟩, ?_, ?_, ?_⟩
        · simp only [coveredPoints_cons, hcov]
        · intro p hp
          rcases List.mem_cons.mp hp with hpe | hp'
          · rw [hpe]; exact hcs
          · exact hval p hp'
        · rw [List.chain'_cons']
          refine ⟨?_, hchain⟩
          intro b hb
          rw [heq] at hb
          rcases Option.mem_some_iff.mp hb with rfl
          exact le_of_not_lt hmerge

/-! ### Summing disjoint ordered segments counts covered points -/

theorem separated_le_starts : ∀ (l : List (Int × Int)) (s e : Int),
    (∀ p ∈ l, p.1 < p.2) →
    ((s, e) :: l).Chain' (fun a b => a.2 ≤ b.1) →
    ∀ p ∈ l, e ≤ p.1 := by
  intro l
  induction l with
  | nil => intro s e _ _ p hp; exact absurd hp (List.not_mem_nil p)
  | cons q rest ih =>
      obtain ⟨s2, e2⟩ := q
      intro s e hvalid hchain p hp
      rcases List.chain'_cons.mp hchain with ⟨hse, hchain'⟩
      have h2 : s2 < e2 := hvalid (s2, e2) (List.mem_cons_self _ _)
      rcases List.mem_cons.mp hp with hpe | hp'
      · rw [hpe]; exact hse
      · have := ih s2 e2 (fun p hp => hvalid p (List.mem_cons_of_mem _ hp)) hchain' p hp'
        omega

theorem sum_lengths_of_separated : ∀ l : List (Int × Int),
    (∀ p ∈ l, p.1 < p.2) →
    l.Chain' (fun a b => a.2 ≤ b.1) →
    (l.map (fun p => p.2 - p.1)).sum = ((coveredPoints l).card : Int) := by
  intro l
  induction l with
  | nil => simp [coveredPoints_nil]
  | cons q rest ih =>
      obtain ⟨s, e⟩ := q
      intro hvalid hchain
      have hse : s < e := hvalid (s, e) (List.mem_cons_self _ _)
      have hvalid' : ∀ p ∈ rest, p.1 < p.2 :=
        fun p hp => hvalid p (List.mem_cons_of_mem _ hp)
      have hchain' : rest.Chain' (fun a b => a.2 ≤ b.1) := hchain.tail
      have hgap : ∀ p ∈ rest, e ≤ p.1 := separated_le_starts rest s e hvalid' hchain
      have hdisj : Disjoint (segPoints (s, e)) (coveredPoints rest) := by
        rw [Finset.disjoint_left]
        intro x hx hx'
        rw [segPoints, Finset.mem_Ico] at hx
        rcases mem_coveredPoints.mp hx' with ⟨p, hp, hpx⟩
        have := hgap p hp
        omega
      rw [List.map_cons, List.sum_cons, coveredPoints_cons,
        Finset.card_union_of_disjoint hdisj, ih hvalid' hchain']
      rw [segPoints, Int.card_Ico]
      push_cast [Int.toNat_of_nonneg (by omega : (0:Int) ≤ e - s)]
      ring

/-- The Accumulator computes the size of the set of points covered by the
common segments. -/
theorem calc_overlap_eq_card (A B : List (Int × Int)) :
    _calculate_overlap_duration A B =
      ((coveredPoints (commonSegments A B)).card : Int) := by
  by_cases hempty : commonSegments A B = []
  · simp [_calculate_overlap_duration, hempty, coveredPoints_nil]
  · rcases hsorted : sortByStart (commonSegments A B) with _ | ⟨first, rest⟩
    · have : commonSegments A B = [] := by
        have hperm := sortByStart_perm (commonSegments A B)
        rw [hsorted] at hperm
        exact hperm.symm.eq_nil
      exact absurd this hempty
    · have hperm := sortByStart_perm (commonSegments A B)
      rw [hsorted] at hperm
      have hpw := sortByStart_pairwise (commonSegments A B)
      rw [hsorted] at hpw
      rcases List.pairwise_cons.mp hpw with ⟨hfirst_le, hpw'⟩
      have hvalid : ∀ p ∈ first :: rest, p.1 < p.2 :=
        fun p hp => commonSegments_valid (hperm.subset hp)
      have h1 : first.1 < first.2 := hvalid first (List.mem_cons_self _ _)
      obtain ⟨_, hcov, hval, hchain⟩ := mergeSweep_spec rest first.1 first.2 h1
        (fun p hp => hvalid p (List.mem_cons_of_mem _ hp))
        (fun p hp => hfirst_le p hp) hpw'
      rw [Prod.mk.eta] at hcov hval hchain
      have hdef : _calculate_overlap_duration A B =
          ((mergeSweep first rest).map (fun p => p.2 - p.1)).sum := by
        simp [_calculate_overlap_duration, hempty, hsorted]
      rw [hdef, sum_lengths_of_separated _ hval hchain, hcov,
        coveredPoints_perm hperm]

/-! ### The clipper -/

theorem clip_mem_bounds (L U : Int) : ∀ (xs : List (Int × Int)) (p : Int × Int),
    p ∈ _clip_intervals_to_lesson xs L U → L ≤ p.1 ∧ p.2 ≤ U ∧ p.1 < p.2 := by
  intro xs
  induction xs with
  | nil => intro p hp; exact absurd hp (List.not_mem_nil p)
  | cons q rest ih =>
      obtain ⟨s, e⟩ := q
      intro p hp
      simp only [_clip_intervals_to_lesson] at hp
      rcases List.mem_append.mp hp with hp1 | hp2
      · by_cases hc : max s L < min e U
        · rw [if_pos hc] at hp1
          rcases List.mem_singleton.mp hp1 with rfl
          exact ⟨le_max_right s L, min_le_right e U, hc⟩
        · rw [if_neg hc] at hp1
          exact absurd hp1 (List.not_mem_nil p)
      · exact ih p hp2

theorem clip_eq_clipSpec (L U : Int) : ∀ xs : List (Int × Int),
    _clip_intervals_to_lesson xs L U = clipSpec L U xs := by
  intro xs
  induction xs with
  | nil => rfl
  | cons q rest ih =>
      obtain ⟨s, e⟩ := q
      simp only [_clip_intervals_to_lesson, clipSpec, List.map_cons, List.filter_cons]
      by_cases hc : max s L < min e U
      · simp [hc, ih, clipSpec]
      · simp [hc, ih, clipSpec]

theorem clip_of_bounded (L U : Int) : ∀ ys : List (Int × Int),
    (∀ p ∈ ys, L ≤ p.1 ∧ p.2 ≤ U ∧ p.1 < p.2) →
    _clip_intervals_to_lesson ys L U = ys := by
  intro ys
  induction ys with
  | nil => intro _; rfl
  | cons q rest ih =>
      obtain ⟨s, e⟩ := q
      intro h
      obtain ⟨h1, h2, h3⟩ := h (s, e) (List.mem_cons_self _ _)
      have hmax : max s L = s := max_eq_left h1
      have hmin : min e U = e := min_eq_left h2
      simp only [_clip_intervals_to_lesson, hmax, hmin, if_pos h3,
        List.singleton_append, List.cons.injEq, true_and]
      exact ih (fun p hp => h p (List.mem_cons_of_mem _ hp))

/-! ### The interval reader (`_parse_timestamps_to_intervals`) -/

theorem parseSpecPairs_nil : parseSpecPairs [] = [] := rfl

theorem parseSpecPairs_single (a : Int) : parseSpecPairs [a] = [] := by
  simp [parseSpecPairs]

theorem parseSpecPairs_cons2 (a b : Int) (rest : List Int) :
    parseSpecPairs (a :: b :: rest) =
      (if a < b then [(a, b)] else []) ++ parseSpecPairs rest := by
  unfold parseSpecPairs
  have hlen : (a :: b :: rest).length / 2 = rest.length / 2 + 1 := by
    simp only [List.length_cons]
    omega
  rw [hlen, List.range_succ_eq_map, List.filterMap_cons, List.filterMap_map]
  have hfun : ∀ i ∈ List.range (rest.length / 2),
      ((fun i => (a :: b :: rest)[2 * i]?.bind fun x =>
          (a :: b :: rest)[2 * i + 1]?.bind fun y =>
            if x < y then some (x, y) else none) ∘ Nat.succ) i =
      (fun i => rest[2 * i]?.bind fun x => rest[2 * i + 1]?.bind fun y =>
          if x < y then some (x, y) else none) i := by
    intro i _
    simp only [Function.comp_apply]
    have h1 : 2 * Nat.succ i = 2 * i + 1 + 1 := by omega
    rw [h1, List.getElem?_cons_succ, List.getElem?_cons_succ,
      List.getElem?_cons_succ, List.getElem?_cons_succ]
  rw [List.filterMap_congr hfun]
  simp only [Nat.mul_zero, List.getElem?_cons_zero, Option.some_bind,
    Nat.zero_add, List.getElem?_cons_succ]
  by_cases hab : a < b
  · simp only [hab, if_true, List.singleton_append]
  · simp only [hab, if_false, List.nil_append]

theorem parse_eq_parseSpecPairs : ∀ t : List Int,
    _parse_timestamps_to_intervals t = parseSpecPairs t
  | [] => rfl
  | [x] => by rw [parseSpecPairs_single]; rfl
  | a :: b :: rest => by
      rw [parseSpecPairs_cons2, ← parse_eq_parseSpecPairs rest]
      simp only [_parse_timestamps_to_intervals]

/-! ### The orchestrator -/

theorem appearance_of_lesson_cons (d : String → Option (List Int)) (a b : Int)
    (rest : List Int) (h : (d "lesson").getD [] = a :: b :: rest) :
    appearance d =
      if a ≥ b then some 0
      else if (_clip_intervals_to_lesson
              (_parse_timestamps_to_intervals ((d "pupil").getD [])) a b).isEmpty ∨
            (_clip_intervals_to_lesson
              (_parse_timestamps_to_intervals ((d "tutor").getD [])) a b).isEmpty then
        some 0
      else
        some (_calculate_overlap_duration
          (_clip_intervals_to_lesson
            (_parse_timestamps_to_intervals ((d "pupil").getD [])) a b)
          (_clip_intervals_to_lesson
            (_parse_timestamps_to_intervals ((d "tutor").getD [])) a b)) := by
  unfold appearance
  rw [h]
  rw [if_neg (by simp)]
  simp only [List.getElem?_cons_zero, List.getElem?_cons_succ,
    Option.bind_eq_bind, Option.some_bind, Option.pure_def]

/-! ### The claims -/

/-- C1: for the concrete session with lesson `[1594663200, 1594666800]`,
the given pupil and tutor timestamps, `appearance` returns exactly `3117`. -/
theorem claim_appearance_concrete_scenario :
    appearance (mkSessionInput [1594663200, 1594666800]
      [1594663340, 1594663389, 1594663390, 1594663395, 1594663396, 1594666472]
      [1594663290, 1594663430, 1594663443, 1594666473]) = some 3117 := by
  decide

/-- C2: for every two interval lists `A` and `B`, `_calculate_overlap_duration`
returns the number of integer time points covered by at least one pairwise
intersection of an interval from `A` with an interval from `B`, each point
counted once however many pairs cover it; in particular the result is
non-negative and is `0` when either list is empty. -/
theorem claim_overlap_duration_is_union_measure :
    ∀ A B : List (Int × Int),
      _calculate_overlap_duration A B = ((specOverlapPoints A B).card : Int) ∧
      (∀ x : Int, x ∈ specOverlapPoints A B ↔
        ∃ a ∈ A, ∃ b ∈ B, max a.1 b.1 ≤ x ∧ x < min a.2 b.2) ∧
      0 ≤ _calculate_overlap_duration A B ∧
      _calculate_overlap_duration [] B = 0 ∧
      _calculate_overlap_duration A [] = 0 := by
  have hmain : ∀ A' B' : List (Int × Int),
      _calculate_overlap_duration A' B' = ((specOverlapPoints A' B').card : Int) := by
    intro A' B'
    rw [calc_overlap_eq_card, coveredPoints_commonSegments_eq_spec]
  intro A B
  refine ⟨hmain A B, fun x => mem_specOverlapPoints, ?_, ?_, ?_⟩
  · rw [hmain A B]; exact Int.natCast_nonneg _
  · rw [hmain [] B]
    have h : specOverlapPoints [] B = ∅ := by
      ext x; simp [mem_specOverlapPoints]
    rw [h]; simp
  · rw [hmain A []]
    have h : specOverlapPoints A [] = ∅ := by
      ext x; simp [mem_specOverlapPoints]
    rw [h]; simp

/-- C3: for every input mapping from string keys to integer lists,
`appearance` returns normally with an integer result (its `Option Int`
embedding, where `none` stands for an uncaught exception, is always
`some`). -/
theorem claim_appearance_total :
    ∀ d : String → Option (List Int), ∃ n : Int, appearance d = some n := by
  intro d
  rcases hl : (d "lesson").getD [] with _ | ⟨a, tail⟩
  · exact ⟨0, by simp [appearance, hl]⟩
  · rcases tail with _ | ⟨b, rest⟩
    · exact ⟨0, by simp [appearance, hl]⟩
    · rw [appearance_of_lesson_cons d a b rest hl]
      split
      · exact ⟨0, rfl⟩
      · split
        · exact ⟨0, rfl⟩
        · exact ⟨_, rfl⟩

/-- C4: `appearance` returns `0` whenever the `lesson` sequence has fewer
than two elements, and whenever its first two elements are a non-increasing
pair (`lesson[0] ≥ lesson[1]`), regardless of `pupil` and `tutor`. -/
theorem claim_appearance_zero_on_invalid_lesson :
    (∀ d : String → Option (List Int),
      ((d "lesson").getD []).length < 2 → appearance d = some 0) ∧
    (∀ (d : String → Option (List Int)) (a b : Int) (rest : List Int),
      (d "lesson").getD [] = a :: b :: rest → b ≤ a → appearance d = some 0) := by
  constructor
  · intro d h
    simp [appearance, h]
  · intro d a b rest h hba
    rw [appearance_of_lesson_cons d a b rest h, if_pos hba]

theorem claim_appearance_zero_on_invalid_lesson_witness :
    appearance (mkSessionInput [5] [0, 10] [0, 10]) = some 0 ∧
    appearance (mkSessionInput [5, 3] [0, 10] [0, 10]) = some 0 :=
  ⟨claim_appearance_zero_on_invalid_lesson.1 _ (by decide),
   claim_appearance_zero_on_invalid_lesson.2 _ 5 3 [] (by decide) (by decide)⟩

/-- C5: the parser returns exactly the pairs `(t[2i], t[2i+1])` with
`t[2i] < t[2i+1]`, in order of increasing `i`, and a trailing unpaired
element is dropped: parsing `[s1, e1, s2, e2, x]` equals parsing
`[s1, e1, s2, e2]`. -/
theorem claim_parse_indexed_pairs :
    (∀ t : List Int, _parse_timestamps_to_intervals t = parseSpecPairs t) ∧
    (∀ s1 e1 s2 e2 x : Int,
      _parse_timestamps_to_intervals [s1, e1, s2, e2, x] =
        _parse_timestamps_to_intervals [s1, e1, s2, e2]) := by
  refine ⟨parse_eq_parseSpecPairs, ?_⟩
  intro s1 e1 s2 e2 x
  simp only [_parse_timestamps_to_intervals, List.append_nil]

/-- C6: the clipper maps each interval `(s, e)` to `(max s L, min e U)`,
keeps it exactly when the clipped start is strictly below the clipped end,
preserving relative order; every output interval `(s', e')` satisfies
`L ≤ s'`, `e' ≤ U` and `s' < e'`. -/
theorem claim_clip_spec_and_bounds :
    ∀ (xs : List (Int × Int)) (L U : Int),
      _clip_intervals_to_lesson xs L U = clipSpec L U xs ∧
      ∀ p ∈ _clip_intervals_to_lesson xs L U, L ≤ p.1 ∧ p.2 ≤ U ∧ p.1 < p.2 :=
  fun xs L U => ⟨clip_eq_clipSpec L U xs, fun p hp => clip_mem_bounds L U xs p hp⟩

theorem claim_clip_spec_and_bounds_witness :
    (2 : Int) ≤ ((2 : Int), (5 : Int)).1 ∧ ((2 : Int), (5 : Int)).2 ≤ 5 ∧
      ((2 : Int), (5 : Int)).1 < ((2 : Int), (5 : Int)).2 :=
  (claim_clip_spec_and_bounds [(0, 10)] 2 5).2 (2, 5) (by decide)

/-- C7: the accumulated overlap duration is symmetric in its two interval
lists. -/
theorem claim_overlap_symmetric :
    ∀ A B : List (Int × Int),
      _calculate_overlap_duration A B = _calculate_overlap_duration B A := by
  intro A B
  rw [calc_overlap_eq_card, calc_overlap_eq_card]
  have h : coveredPoints (commonSegments A B) = coveredPoints (commonSegments B A) := by
    ext x
    rw [mem_coveredPoints_commonSegments, mem_coveredPoints_commonSegments]
    constructor
    · rintro ⟨a, ha, b, hb, h1, h2⟩
      exact ⟨b, hb, a, ha, by rw [max_comm]; exact h1, by rw [min_comm]; exact h2⟩
    · rintro ⟨b, hb, a, ha, h1, h2⟩
      exact ⟨a, ha, b, hb, by rw [max_comm]; exact h1, by rw [min_comm]; exact h2⟩
  rw [h]

/-- C8: widening a single interval of `A` (smaller start, larger end) cannot
decrease the accumulated overlap duration with `B`. -/
theorem claim_overlap_monotone_expansion :
    ∀ (A1 A2 B : List (Int × Int)) (s e s' e' : Int), s' ≤ s → e ≤ e' →
      _calculate_overlap_duration (A1 ++ (s, e) :: A2) B ≤
        _calculate_overlap_duration (A1 ++ (s', e') :: A2) B := by
  intro A1 A2 B s e s' e' hs he
  rw [calc_overlap_eq_card, calc_overlap_eq_card]
  have hsub : coveredPoints (commonSegments (A1 ++ (s, e) :: A2) B) ⊆
      coveredPoints (commonSegments (A1 ++ (s', e') :: A2) B) := by
    intro x hx
    rcases mem_coveredPoints_commonSegments.mp hx with ⟨a, ha, b, hb, h1, h2⟩
    rcases List.mem_append.mp ha with ha1 | ha2
    · exact mem_coveredPoints_commonSegments.mpr
        ⟨a, List.mem_append_left _ ha1, b, hb, h1, h2⟩
    · rcases List.mem_cons.mp ha2 with hae | ha3
      · subst hae
        refine mem_coveredPoints_commonSegments.mpr
          ⟨(s', e'), List.mem_append_right _ (List.mem_cons_self _ _), b, hb, ?_, ?_⟩
        · rcases max_le_iff.mp h1 with ⟨hsx, hbx⟩
          exact max_le_iff.mpr ⟨le_trans hs hsx, hbx⟩
        · rcases lt_min_iff.mp h2 with ⟨hxe, hxb⟩
          exact lt_min_iff.mpr ⟨lt_of_lt_of_le hxe he, hxb⟩
      · exact mem_coveredPoints_commonSegments.mpr
          ⟨a, List.mem_append_right _ (List.mem_cons_of_mem _ ha3), b, hb, h1, h2⟩
  exact Nat.cast_le.mpr (Finset.card_le_card hsub)

theorem claim_overlap_monotone_expansion_witness :
    _calculate_overlap_duration ([] ++ ((2 : Int), (5 : Int)) :: []) [(0, 10)] ≤
      _calculate_overlap_duration ([] ++ ((1 : Int), (6 : Int)) :: []) [(0, 10)] :=
  claim_overlap_monotone_expansion [] [] [(0, 10)] 2 5 1 6 (by decide) (by decide)

/-- C9: clipping an already-clipped list to the same bounds returns it
unchanged. -/
theorem claim_clip_idempotent :
    ∀ (xs : List (Int × Int)) (L U : Int),
      _clip_intervals_to_lesson (_clip_intervals_to_lesson xs L U) L U =
        _clip_intervals_to_lesson xs L U :=
  fun xs L U => clip_of_bounded L U _ (fun p hp => clip_mem_bounds L U xs p hp)

/-- C10: when the lesson list starts with a valid pair `a < b`, the result of
`appearance` is an integer between `0` and the lesson duration `b - a`. -/
theorem claim_appearance_bounded_by_lesson :
    ∀ (d : String → Option (List Int)) (a b : Int) (rest : List Int),
      (d "lesson").getD [] = a :: b :: rest → a < b →
      ∃ n : Int, appearance d = some n ∧ 0 ≤ n ∧ n ≤ b - a := by
  intro d a b rest h hab
  rw [appearance_of_lesson_cons d a b rest h, if_neg (not_le.mpr hab)]
  split
  · exact ⟨0, rfl, le_refl 0, by omega⟩
  · refine ⟨_, rfl, ?_, ?_⟩
    · rw [calc_overlap_eq_card]
      exact Int.natCast_nonneg _
    · rw [calc_overlap_eq_card]
      have hsub : coveredPoints (commonSegments
          (_clip_intervals_to_lesson
            (_parse_timestamps_to_intervals ((d "pupil").getD [])) a b)
          (_clip_intervals_to_lesson
            (_parse_timestamps_to_intervals ((d "tutor").getD [])) a b)) ⊆
          Finset.Ico a b := by
        intro x hx
        rcases mem_coveredPoints_commonSegments.mp hx with ⟨p, hp, t, ht, h1, h2⟩
        obtain ⟨hp1, hp2, _⟩ := clip_mem_bounds a b _ p hp
        rcases max_le_iff.mp h1 with ⟨hpx, _⟩
        rcases lt_min_iff.mp h2 with ⟨hxp, _⟩
        rw [Finset.mem_Ico]
        omega
      calc ((coveredPoints (commonSegments _ _)).card : Int)
          ≤ ((Finset.Ico a b).card : Int) := Nat.cast_le.mpr (Finset.card_le_card hsub)
        _ = b - a := by rw [Int.card_Ico, Int.toNat_of_nonneg (by omega)]

theorem claim_appearance_bounded_by_lesson_witness :
    ∃ n : Int, appearance (mkSessionInput [0, 100] [10, 20] [0, 100]) = some n ∧
      0 ≤ n ∧ n ≤ 100 - 0 :=
  claim_appearance_bounded_by_lesson _ 0 100 [] (by decide) (by decide)

end Task3
